import Mathlib

/-!
Shallow embedding of the WorkTimeTaskLogger capture-to-storage pipeline.

Modelling conventions:
* JavaScript `Date` values are modelled by milliseconds since the Unix epoch
  (`Int`); the SQLite `timestamp TEXT` column stores ISO-8601 strings whose
  lexicographic order coincides with chronological order, so integer
  comparison is a faithful model of the SQL comparisons.
* The `time_entries` table is modelled as a `List TimeEntry` in insertion
  order; the AUTOINCREMENT row id of an entry is its index in the list.
* JavaScript `Map` objects are modelled as association lists in first-insertion
  order, matching the iteration order of `Map.entries()`.
* JavaScript numbers are modelled as `Int` (timestamps, seconds) or `ℚ`
  (hours, confidence scores); all values occurring in the program are small
  integers or simple fractions, exactly representable as doubles, so the
  models agree with IEEE-754 evaluation on them.
-/

namespace WorkTimeTaskLogger

/-- One row of the `time_entries` table (src/storage/database.ts, `TimeEntry`
in src/types.ts).  `timestamp` is in milliseconds since the Unix epoch. -/
structure TimeEntry where
  timestamp : Int
  appName : String
  windowTitle : String
  screenshotPath : Option String
  taskDescription : Option String
  projectId : Option String
  manualProjectId : Option String
  durationSeconds : Option Int
  isIdle : Bool
  aiAnalysis : Option String
deriving DecidableEq

/-- Active window information (`WindowInfo` in src/types.ts). -/
structure WindowInfo where
  appName : String
  title : String
  bundleId : Option String
  pid : Int
deriving DecidableEq

/-- Result of the AI task analysis (`TaskAnalysis` in src/types.ts).  The
`category` field holds one of the nine strings of the `WorkCategory` union;
`validateCategory` normalises anything else to `"other"`. -/
structure TaskAnalysis where
  taskDescription : String
  suggestedProjectId : Option String
  confidence : ℚ
  category : String
  notes : Option String
deriving DecidableEq

/-- Model of `insertTimeEntry` (src/storage/database.ts:82): appends a row; the new
row id is the previous length of the store. -/
def insertTimeEntry (entry : TimeEntry) (store : List TimeEntry) : List TimeEntry :=
  store ++ [entry]

/-- Row id and timestamp produced by
`SELECT id, timestamp FROM time_entries ORDER BY timestamp DESC LIMIT 1`
(src/storage/database.ts:120).  Among rows with equal timestamps SQLite's
choice is unspecified; this model picks the earliest such row.  Every claim
below only uses stores with pairwise distinct timestamps. -/
def latestEntry : List TimeEntry → Option (Nat × Int)
  | [] => none
  | e :: es =>
    match latestEntry es with
    | none => some (0, e.timestamp)
    | some (j, tj) =>
      if tj ≤ e.timestamp then some (0, e.timestamp) else some (j + 1, tj)

/-- Replace the row at a given id by the image under `f` (model of an SQL
`UPDATE ... WHERE id = ?`); out-of-range ids change nothing. -/
def modifyEntry (f : TimeEntry → TimeEntry) : Nat → List TimeEntry → List TimeEntry
  | _, [] => []
  | 0, e :: es => f e :: es
  | n + 1, e :: es => e :: modifyEntry f n es

/-- Model of `updatePreviousEntryDuration` (src/storage/database.ts:114): finds the
row with the latest timestamp and sets its `duration_seconds` to
`Math.floor((currentTimestamp - lastTime) / 1000)`; no-op on an empty store.
`Math.floor` of the quotient is floor division `Int.fdiv`. -/
def updatePreviousEntryDuration (currentTimestamp : Int) (store : List TimeEntry) : List TimeEntry :=
  match latestEntry store with
  | none => store
  | some (j, tj) =>
    modifyEntry
      (fun e => { e with durationSeconds := some ((currentTimestamp - tj).fdiv 1000) })
      j store

/-- The SQL range condition `timestamp >= ? AND timestamp < ?`
(src/storage/database.ts:151). -/
def entryInRange (startDate endDate : Int) (e : TimeEntry) : Bool :=
  decide (startDate ≤ e.timestamp) && decide (e.timestamp < endDate)

/-- The optional project filter `(project_id = ? OR manual_project_id = ?)`
(src/storage/database.ts:158-161).  The JavaScript guard `if (projectId)`
skips the filter for the empty string (falsy) as well as for a missing
argument. -/
def matchesProjectFilter (projectId : Option String) (e : TimeEntry) : Bool :=
  match projectId with
  | none => true
  | some f =>
    if f = "" then true
    else decide (e.projectId = some f) || decide (e.manualProjectId = some f)

/-- Ordering used by `ORDER BY timestamp ASC`. -/
def byTimestamp (a b : TimeEntry) : Prop := a.timestamp ≤ b.timestamp

instance : DecidableRel byTimestamp := fun a b => Int.decLe a.timestamp b.timestamp

instance : IsTotal TimeEntry byTimestamp := ⟨fun a b => Int.le_total a.timestamp b.timestamp⟩

instance : IsTrans TimeEntry byTimestamp := ⟨fun _ _ _ hab hbc => le_trans hab hbc⟩

/-- Model of `getTimeEntries` (src/storage/database.ts:142): rows with
`startDate ≤ timestamp < endDate`, optionally filtered by project id,
ordered by ascending timestamp (stable sort; ties are in unspecified order
in SQLite, rowid order here). -/
def getTimeEntries (startDate endDate : Int) (projectId : Option String)
    (store : List TimeEntry) : List TimeEntry :=
  List.insertionSort byTimestamp
    (store.filter (fun e => entryInRange startDate endDate e && matchesProjectFilter projectId e))

/-- Effective project of an entry:
`entry.manualProjectId ?? entry.projectId ?? "unassigned"`
(src/storage/database.ts:219). -/
def effectiveProject (e : TimeEntry) : String :=
  match e.manualProjectId with
  | some m => m
  | none => e.projectId.getD "unassigned"

/-- One `{key, seconds, entries}` aggregation bucket. -/
structure ProjectTime where
  projectId : String
  projectName : String
  seconds : Int
  entries : Nat
deriving DecidableEq

/-- Category bucket of a `DailySummary`. -/
structure CategoryTime where
  category : String
  seconds : Int
  entries : Nat
deriving DecidableEq

/-- App bucket of a `DailySummary`. -/
structure AppTime where
  appName : String
  seconds : Int
  entries : Nat
deriving DecidableEq

/-- Model of `DailySummary` (src/types.ts); `date` is the start-of-day timestamp. -/
structure DailySummary where
  date : Int
  totalTrackedSeconds : Int
  idleSeconds : Int
  activeSeconds : Int
  projectBreakdown : List ProjectTime
  categoryBreakdown : List CategoryTime
  topApps : List AppTime
deriving DecidableEq

/-- Model of `map.set(key, {seconds: old.seconds + dur, entries: old.entries + 1})`
on an insertion-ordered map, starting the bucket at `(dur, 1)` when absent. -/
def bumpBucket (key : String) (dur : Int) : List (String × Int × Nat) → List (String × Int × Nat)
  | [] => [(key, dur, 1)]
  | (k, s, n) :: rest =>
    if k = key then (k, s + dur, n + 1) :: rest
    else (k, s, n) :: bumpBucket key dur rest

/-- Accumulator of the aggregation loop in `getDailySummary`
(src/storage/database.ts:198-234). -/
structure SummaryAcc where
  total : Int
  idle : Int
  active : Int
  projectMap : List (String × Int × Nat)
  appMap : List (String × Int × Nat)
deriving DecidableEq

/-- Body of the `for (const entry of entries)` loop of `getDailySummary`:
`duration = entry.durationSeconds ?? 0` is added to the total, then either
to `idleSeconds` or to `activeSeconds` plus the project and app buckets.
The `categoryMap` declared at src/storage/database.ts:203 is never written
inside this loop, so it carries no state here. -/
def summaryStep (acc : SummaryAcc) (entry : TimeEntry) : SummaryAcc :=
  let duration := entry.durationSeconds.getD 0
  if entry.isIdle then
    { acc with total := acc.total + duration, idle := acc.idle + duration }
  else
    { acc with
        total := acc.total + duration
        active := acc.active + duration
        projectMap := bumpBucket (effectiveProject entry) duration acc.projectMap
        appMap := bumpBucket entry.appName duration acc.appMap }

/-- Descending-seconds ordering of `topApps`
(`.sort((a, b) => b.seconds - a.seconds)`); the strict comparison makes the
insertion sort stable, matching the stable JavaScript `Array.sort`. -/
def byDescSeconds (a b : AppTime) : Prop := b.seconds < a.seconds

instance : DecidableRel byDescSeconds := fun a b => Int.decLt b.seconds a.seconds

/-- Model of `getDailySummary` (src/storage/database.ts:188): scans the entries of
`[startOfDay, startOfDay + 1 day)` and aggregates.  `categoryBreakdown` is
built from the `categoryMap`, which no statement of the function ever
populates, hence it is `[]` on every input. -/
def getDailySummary (startOfDay : Int) (store : List TimeEntry) : DailySummary :=
  let endOfDay := startOfDay + 86400000
  let entries := getTimeEntries startOfDay endOfDay none store
  let acc := entries.foldl summaryStep ⟨0, 0, 0, [], []⟩
  { date := startOfDay
    totalTrackedSeconds := acc.total
    idleSeconds := acc.idle
    activeSeconds := acc.active
    projectBreakdown := acc.projectMap.map (fun p => ⟨p.1, p.1, p.2.1, p.2.2⟩)
    categoryBreakdown := []
    topApps :=
      (List.insertionSort byDescSeconds (acc.appMap.map (fun p => ⟨p.1, p.2.1, p.2.2⟩))).take 10 }

/-- Model of `updateEntryAnalysis` (src/storage/database.ts:277): sets exactly
`task_description`, `project_id` and `ai_analysis` on the row with the
given id. -/
def updateEntryAnalysis (entryId : Nat) (taskDescription : String)
    (projectId : Option String) (aiAnalysis : String)
    (store : List TimeEntry) : List TimeEntry :=
  modifyEntry
    (fun e => { e with
        taskDescription := some taskDescription
        projectId := projectId
        aiAnalysis := some aiAnalysis })
    entryId store

/-- Closed category set of `validateCategory` (src/agent.ts:305-316). -/
def validCategories : List String :=
  ["coding", "communication", "research", "documentation", "meeting",
   "design", "admin", "break", "other"]

/-- Model of `validateCategory` (src/agent.ts:305): a recognised category string is
kept, anything else (including a missing field) maps to `"other"`. -/
def validateCategory (category : Option String) : String :=
  match category with
  | some c => if c ∈ validCategories then c else "other"
  | none => "other"

/-- Static `appCategory → category` lookup table of `createFallbackAnalysis`
(src/agent.ts:332-339). -/
def fallbackCategoryMap : List (String × String) :=
  [("browser", "research"), ("editor", "coding"), ("terminal", "coding"),
   ("communication", "communication"), ("design", "design"), ("other", "other")]

/-- First-match lookup in an association list (record field access in the
JavaScript object literal). -/
def assocLookup (key : String) : List (String × String) → Option String
  | [] => none
  | (k, v) :: rest => if key = k then some v else assocLookup key rest

/-- Model of `createFallbackAnalysis` (src/agent.ts:328): the local heuristic used
when the AI backend is unavailable; `categoryMap[appCategory] ?? "other"`. -/
def createFallbackAnalysis (windowInfo : WindowInfo) (appCategory : String) : TaskAnalysis :=
  { taskDescription := "Working in " ++ windowInfo.appName
    suggestedProjectId := none
    confidence := 3 / 10
    category := (assocLookup appCategory fallbackCategoryMap).getD "other"
    notes := some "Fallback analysis - AI unavailable" }

/-- Fields that `JSON.parse` may deliver for an analysis object
(src/agent.ts:246-252); every field is optional.  A `suggestedProjectId`
that is absent or JSON `null` are both modelled as `none`, matching
`parsed.suggestedProjectId ?? null`. -/
structure ParsedAnalysis where
  taskDescription : Option String
  suggestedProjectId : Option String
  confidence : Option ℚ
  category : Option String
  notes : Option String
deriving DecidableEq

/-- Model of `parseAnalysisResult` (src/agent.ts:237): the regex scan of the raw
backend text for a first brace-delimited object and `JSON.parse` are
platform built-ins, modelled by the `Option ParsedAnalysis` input (`none`
when no parseable JSON object was found).  Found fields are used with the
per-field defaults; otherwise the fallback analysis is returned. -/
def parseAnalysisResult (jsonObject : Option ParsedAnalysis)
    (windowInfo : WindowInfo) (appCategory : String) : TaskAnalysis :=
  match jsonObject with
  | some parsed =>
    { taskDescription := parsed.taskDescription.getD "Unknown activity"
      suggestedProjectId := parsed.suggestedProjectId
      confidence := parsed.confidence.getD (1 / 2)
      category := validateCategory parsed.category
      notes := parsed.notes }
  | none => createFallbackAnalysis windowInfo appCategory

/-- Model of `analyzeTask` (src/agent.ts:271): both backends (proxy and SDK) are
wrapped in try/catch; a throwing backend (`Except.error`) yields the
fallback analysis, a raw text response is parsed with
`parseAnalysisResult`.  The external call is modelled by its outcome:
`Except.error` for a throw, `Except.ok` carrying the parse of the first
brace-delimited JSON object of the response text. -/
def analyzeTask (backendResult : Except String (Option ParsedAnalysis))
    (windowInfo : WindowInfo) (appCategory : String) : TaskAnalysis :=
  match backendResult with
  | .error _ => createFallbackAnalysis windowInfo appCategory
  | .ok jsonObject => parseAnalysisResult jsonObject windowInfo appCategory

/-- One check of the idle watcher (src/capture/idle.ts:156-163):
`isIdle = idleSeconds >= idleThresholdSeconds`; when it differs from
`wasIdle` the state flips and the callback fires with
`(isIdle, idleSeconds)`, otherwise nothing happens.  Returns the new
`wasIdle` and the callback invocations of this check. -/
def idleCheckStep (idleThresholdSeconds : Int) (wasIdle : Bool)
    (idleSeconds : Int) : Bool × List (Bool × Int) :=
  let isIdle := decide (idleThresholdSeconds ≤ idleSeconds)
  if isIdle ≠ wasIdle then (isIdle, [(isIdle, idleSeconds)])
  else (wasIdle, [])

/-- Run of `createIdleWatcher`'s periodic checks (src/capture/idle.ts:147)
from a given `wasIdle` over a finite sequence of idle-seconds probe
readings, collecting the callback invocations in order. -/
def runIdleWatcherFrom (idleThresholdSeconds : Int) (wasIdle : Bool) :
    List Int → List (Bool × Int)
  | [] => []
  | r :: rs =>
    let step := idleCheckStep idleThresholdSeconds wasIdle r
    step.2 ++ runIdleWatcherFrom idleThresholdSeconds step.1 rs

/-- The watcher starts with `wasIdle = false` (src/capture/idle.ts:152). -/
def runIdleWatcher (idleThresholdSeconds : Int) (readings : List Int) :
    List (Bool × Int) :=
  runIdleWatcherFrom idleThresholdSeconds false readings

/-- A JavaScript `Date` at calendar granularity: day number since the epoch
(1970-01-01 = day 0, a Thursday) plus milliseconds within the day.
`setDate(n)` re-anchors the date to day `n` of its month via MakeDay, which
shifts the instant by `n - getDate()` whole days regardless of month
boundaries, so day arithmetic models it exactly (also when the target
Monday falls in the previous month). -/
structure JSDate where
  days : Int
  msOfDay : Int
deriving DecidableEq

/-- Model of `Date.prototype.getDay`: 0 = Sunday, …, 6 = Saturday; day 0 of the
epoch is a Thursday (4). -/
def jsGetDay (d : JSDate) : Int := (d.days + 4) % 7

/-- Model of `getWeekStart` (src/reports/weekly.ts:22):
`diff = d.getDate() - day + (day === 0 ? -6 : 1)` followed by
`d.setDate(diff)` shifts the date by `(if day = 0 then -6 else 1) - day`
days, and `setHours(0, 0, 0, 0)` zeroes the time of day. -/
def getWeekStart (d : JSDate) : JSDate :=
  let day := jsGetDay d
  { days := d.days + ((if day = 0 then -6 else 1) - day), msOfDay := 0 }

/-- Day number of the Monday of the Monday–Sunday week containing day `n`:
the largest `m ≤ n` with weekday Monday.  Two dates lie in the same
calendar week exactly when their `mondayOf` agree. -/
def mondayOf (n : Int) : Int := n - (n + 3) % 7

/-- Model of `WeeklyReport` (src/types.ts), with the fields used by
`calculateWeekChange`; dates are start-of-day instants. -/
structure WeeklyReport where
  weekStartDate : JSDate
  weekEndDate : JSDate
  totalHours : ℚ
  dailySummaries : List DailySummary
  projectTotals : List ProjectTime
  categoryTotals : List CategoryTime
deriving DecidableEq

/-- Model of `Map.set` on an insertion-ordered string-keyed map of rationals. -/
def mapSet (key : String) (value : ℚ) : List (String × ℚ) → List (String × ℚ)
  | [] => [(key, value)]
  | (k, v) :: rest =>
    if key = k then (k, value) :: rest else (k, v) :: mapSet key value rest

/-- Model of `Map.get` on the same model. -/
def mapGet (key : String) : List (String × ℚ) → Option ℚ
  | [] => none
  | (k, v) :: rest => if key = k then some v else mapGet key rest

/-- Build a map by setting one pair per list element, in order (both the
`new Map(array)` constructor and an explicit set loop). -/
def foldSet {α : Type} (keyf : α → String) (valf : α → ℚ) (l : List α) :
    List (String × ℚ) :=
  l.foldl (fun m p => mapSet (keyf p) (valf p) m) []

/-- Model of `new Map(previousWeek.projectTotals.map((p) => [p.projectId, p.seconds / 3600]))`
(src/reports/weekly.ts:249). -/
def prevProjectHoursMap (w : WeeklyReport) : List (String × ℚ) :=
  foldSet (fun p => p.projectId) (fun p => (p.seconds : ℚ) / 3600) w.projectTotals

/-- Result record of `calculateWeekChange`. -/
structure WeekChange where
  hoursChange : ℚ
  hoursChangePercent : ℚ
  projectChanges : List (String × ℚ)
deriving DecidableEq

/-- Model of `calculateWeekChange` (src/reports/weekly.ts:232): total-hours delta,
percentage (0 when the previous total is not positive), and a per-project
map built by iterating only over `currentWeek.projectTotals`, each set to
`currentHours - (prevProjectMap.get(id) ?? 0)`. -/
def calculateWeekChange (currentWeek previousWeek : WeeklyReport) : WeekChange :=
  let hoursChange := currentWeek.totalHours - previousWeek.totalHours
  let hoursChangePercent :=
    if 0 < previousWeek.totalHours then hoursChange / previousWeek.totalHours * 100 else 0
  let prevProjectMap := prevProjectHoursMap previousWeek
  let projectChanges :=
    foldSet (fun p => p.projectId)
      (fun p => (p.seconds : ℚ) / 3600 - (mapGet p.projectId prevProjectMap).getD 0)
      currentWeek.projectTotals
  { hoursChange := hoursChange
    hoursChangePercent := hoursChangePercent
    projectChanges := projectChanges }

/-- The entry inserted by the sampler's capture cycle
(src/index.ts:216-227): classification fields and duration are null and
`isIdle` is hard-coded `false`; only the timestamp, window data and the
optional screenshot path vary. -/
def samplerEntry (t : Int) (app title : String) (shot : Option String) : TimeEntry :=
  { timestamp := t
    appName := app
    windowTitle := title
    screenshotPath := shot
    taskDescription := none
    projectId := none
    manualProjectId := none
    durationSeconds := none
    isIdle := false
    aiAnalysis := none }

/-- Store states reachable from the empty store under the sampler
(src/index.ts:178-253).  A cycle that skips (idle, no window, excluded app)
leaves the store unchanged, so only the non-skipping cycle appears: the
duration back-fill `updatePreviousEntryDuration now` followed by
`insertTimeEntry` of a fresh `samplerEntry` at a timestamp later than every
stored one (monotone wall clock).  The asynchronous classification write
`updateEntryAnalysis` may patch any row at any time. -/
inductive Reachable : List TimeEntry → Prop
  | empty : Reachable []
  | cycle (s : List TimeEntry) (t : Int) (app title : String) (shot : Option String) :
      Reachable s → (∀ e ∈ s, e.timestamp < t) →
      Reachable (insertTimeEntry (samplerEntry t app title shot)
        (updatePreviousEntryDuration t s))
  | patch (s : List TimeEntry) (i : Nat) (td : String) (pid : Option String) (an : String) :
      Reachable s → Reachable (updateEntryAnalysis i td pid an s)

/-- Number of open entries (`durationSeconds` null) of a store. -/
def countNulls (store : List TimeEntry) : Nat :=
  (store.filter (fun e => e.durationSeconds = none)).length

/-- One sampler append as exercised by claim C2: back-fill with the new
entry's timestamp, then insert it. -/
def runAppends (es : List TimeEntry) : List TimeEntry :=
  es.foldl (fun s e => insertTimeEntry e (updatePreviousEntryDuration e.timestamp s)) []

/-- Expected store after `runAppends` on entries with strictly increasing
timestamps: every entry but the last carries
`floor((next.timestamp - this.timestamp) / 1000)`, the last is untouched. -/
def expectedDurations : List TimeEntry → List TimeEntry
  | [] => []
  | [e] => [e]
  | a :: b :: rest =>
    { a with durationSeconds := some ((b.timestamp - a.timestamp).fdiv 1000) }
      :: expectedDurations (b :: rest)

/-- Duration and timestamp projection of a store, used to state invariants
that classification patches cannot disturb. -/
def durTs (store : List TimeEntry) : List (Option Int × Int) :=
  store.map (fun e => (e.durationSeconds, e.timestamp))

/-- Store invariant on the duration/timestamp projection: the last row (if
any) is the open one — duration null — and every earlier row has a non-null
duration and a strictly smaller timestamp. -/
def InvDT (l : List (Option Int × Int)) : Prop :=
  ∀ p : Option Int × Int, l.getLast? = some p →
    p.1 = none ∧ ∀ q ∈ l.dropLast, q.1 ≠ none ∧ q.2 < p.2

/-! ## Theorems -/

/-- C6: when the classifier backend throws, `analyzeTask` returns — without
raising — the fallback analysis with `taskDescription = "Working in
{appName}"`, `suggestedProjectId = null`, `confidence = 0.3`,
`notes = "Fallback analysis - AI unavailable"`, and a category obtained from
the static lookup browser→research, editor→coding, terminal→coding,
communication→communication, design→design, other→other, anything
else→other. -/
theorem analyzeTask_backend_failure_fallback :
    (∀ (err : String) (w : WindowInfo) (appCategory : String),
      analyzeTask (Except.error err) w appCategory =
        { taskDescription := "Working in " ++ w.appName
          suggestedProjectId := none
          confidence := 3 / 10
          category := (assocLookup appCategory fallbackCategoryMap).getD "other"
          notes := some "Fallback analysis - AI unavailable" })
    ∧ assocLookup "browser" fallbackCategoryMap = some "research"
    ∧ assocLookup "editor" fallbackCategoryMap = some "coding"
    ∧ assocLookup "terminal" fallbackCategoryMap = some "coding"
    ∧ assocLookup "communication" fallbackCategoryMap = some "communication"
    ∧ assocLookup "design" fallbackCategoryMap = some "design"
    ∧ assocLookup "other" fallbackCategoryMap = some "other"
    ∧ ∀ c : String,
        c ∉ ["browser", "editor", "terminal", "communication", "design", "other"] →
        (assocLookup c fallbackCategoryMap).getD "other" = "other" := by
  refine ⟨fun err w appCategory => rfl, rfl, rfl, rfl, rfl, rfl, rfl, ?_⟩
  intro c hc
  simp only [List.mem_cons, List.not_mem_nil, or_false, not_or] at hc
  obtain ⟨h1, h2, h3, h4, h5, h6⟩ := hc
  simp [assocLookup, fallbackCategoryMap, h1, h2, h3, h4, h5, h6]

/-- Witness for C6 at a concrete backend error, window and app category. -/
theorem analyzeTask_backend_failure_fallback_witness :
    analyzeTask (Except.error "network error")
        ⟨"VS Code", "index.ts - project", none, 1⟩ "editor" =
      ⟨"Working in VS Code", none, 3 / 10, "coding",
        some "Fallback analysis - AI unavailable"⟩
    ∧ ("zzz" : String) ∉
        ["browser", "editor", "terminal", "communication", "design", "other"]
    ∧ (assocLookup "zzz" fallbackCategoryMap).getD "other" = "other" := by
  refine ⟨?_, by decide, ?_⟩
  · exact (analyzeTask_backend_failure_fallback.1 "network error"
      ⟨"VS Code", "index.ts - project", none, 1⟩ "editor").trans rfl
  · exact analyzeTask_backend_failure_fallback.2.2.2.2.2.2.2 "zzz" (by decide)

/-- C8: `getWeekStart` lands on the Monday 00:00:00 of the containing
Monday–Sunday week, is constant on calendar weeks (two dates with the same
containing Monday give the same instant, also across month boundaries), and
is idempotent. -/
theorem getWeekStart_week_constant_idempotent :
    (∀ d : JSDate,
      jsGetDay (getWeekStart d) = 1 ∧ (getWeekStart d).msOfDay = 0 ∧
        (getWeekStart d).days = mondayOf d.days ∧
        (getWeekStart d).days ≤ d.days ∧ d.days < (getWeekStart d).days + 7)
    ∧ (∀ d₁ d₂ : JSDate,
        mondayOf d₁.days = mondayOf d₂.days → getWeekStart d₁ = getWeekStart d₂)
    ∧ ∀ d : JSDate, getWeekStart (getWeekStart d) = getWeekStart d := by
  have hext : ∀ a b : JSDate, a.days = b.days → a.msOfDay = b.msOfDay → a = b := by
    intro a b h1 h2
    cases a
    cases b
    simp_all
  have hdays : ∀ d : JSDate, (getWeekStart d).days = mondayOf d.days := by
    intro d
    show d.days + ((if (d.days + 4) % 7 = 0 then -6 else 1) - (d.days + 4) % 7)
      = d.days - (d.days + 3) % 7
    by_cases h0 : (d.days + 4) % 7 = 0
    · rw [if_pos h0]
      omega
    · rw [if_neg h0]
      omega
  have hmonday : ∀ n : Int, (mondayOf n + 4) % 7 = 1 ∧ mondayOf n ≤ n ∧ n < mondayOf n + 7 := by
    intro n
    unfold mondayOf
    omega
  refine ⟨?_, ?_, ?_⟩
  · intro d
    refine ⟨?_, rfl, hdays d, ?_, ?_⟩
    · show ((getWeekStart d).days + 4) % 7 = 1
      rw [hdays d]
      exact (hmonday d.days).1
    · rw [hdays d]
      exact (hmonday d.days).2.1
    · rw [hdays d]
      exact (hmonday d.days).2.2
  · intro d₁ d₂ h
    exact hext _ _ (by rw [hdays d₁, hdays d₂, h]) rfl
  · intro d
    refine hext _ _ ?_ rfl
    rw [hdays (getWeekStart d), hdays d]
    unfold mondayOf
    omega

/-- Witness for C8 at two concrete dates of the same Monday–Sunday week
(a Wednesday with time-of-day and the Monday itself). -/
theorem getWeekStart_week_constant_idempotent_witness :
    mondayOf (20103 : Int) = mondayOf (20101 : Int)
    ∧ getWeekStart ⟨20103, 43200000⟩ = getWeekStart ⟨20101, 0⟩ := by
  refine ⟨by decide, ?_⟩
  exact getWeekStart_week_constant_idempotent.2.1 ⟨20103, 43200000⟩ ⟨20101, 0⟩ (by decide)

/-- Characterisation of `runIdleWatcherFrom`: after each check the stored
`wasIdle` equals the idle predicate of that check, so the callback fires at
a check exactly when the predicate differs from the previous check's
predicate (the state before the first check being `false`). -/
theorem runIdleWatcherFrom_eq_transitions (idleThresholdSeconds : Int) :
    ∀ (readings : List Int) (wasIdle : Bool),
      runIdleWatcherFrom idleThresholdSeconds wasIdle readings =
        (readings.zip (wasIdle :: readings.map
            (fun r => decide (idleThresholdSeconds ≤ r)))).filterMap
          (fun p =>
            if decide (idleThresholdSeconds ≤ p.1) ≠ p.2 then
              some (decide (idleThresholdSeconds ≤ p.1), p.1)
            else none)
  | [], _ => rfl
  | r :: rs, wasIdle => by
    by_cases h : decide (idleThresholdSeconds ≤ r) = wasIdle
    · simp [runIdleWatcherFrom, idleCheckStep, h,
        runIdleWatcherFrom_eq_transitions idleThresholdSeconds rs]
    · simp [runIdleWatcherFrom, idleCheckStep, h,
        runIdleWatcherFrom_eq_transitions idleThresholdSeconds rs]

/-- C9: the idle watcher (initial `wasIdle = false`) invokes its callback
exactly at the checks where the predicate `idleSeconds ≥ threshold` differs
from its value at the previous check, never when the state is unchanged;
on the readings [0, 0, 400, 400, 0] with threshold 300 it fires exactly
twice, first `(isIdle = true, 400)` then `(isIdle = false, 0)`. -/
theorem runIdleWatcher_fires_on_transitions :
    (∀ (idleThresholdSeconds : Int) (readings : List Int),
      runIdleWatcher idleThresholdSeconds readings =
        (readings.zip (false :: readings.map
            (fun r => decide (idleThresholdSeconds ≤ r)))).filterMap
          (fun p =>
            if decide (idleThresholdSeconds ≤ p.1) ≠ p.2 then
              some (decide (idleThresholdSeconds ≤ p.1), p.1)
            else none))
    ∧ runIdleWatcher 300 [0, 0, 400, 400, 0] = [(true, 400), (false, 0)] := by
  exact ⟨fun th readings => runIdleWatcherFrom_eq_transitions th readings false, by decide⟩

/-- Reading `mapGet` after `mapSet` at the same key yields the new value. -/
theorem mapGet_mapSet_self (k : String) (v : ℚ) (m : List (String × ℚ)) :
    mapGet k (mapSet k v m) = some v := by
  induction m with
  | nil => simp [mapSet, mapGet]
  | cons p rest ih =>
    obtain ⟨k2, v2⟩ := p
    by_cases h : k = k2
    · simp [mapSet, mapGet, h]
    · simp [mapSet, mapGet, h, ih]

/-- Reading `mapGet` after `mapSet` at a different key is unchanged. -/
theorem mapGet_mapSet_other (k k2 : String) (v : ℚ) (m : List (String × ℚ))
    (h : k ≠ k2) : mapGet k (mapSet k2 v m) = mapGet k m := by
  induction m with
  | nil => simp [mapSet, mapGet, h]
  | cons p rest ih =>
    obtain ⟨k3, v3⟩ := p
    by_cases h3 : k2 = k3
    · subst h3
      simp [mapSet, mapGet, h]
    · by_cases h4 : k = k3 <;> simp [mapSet, mapGet, h3, h4, ih]

/-- A key set by no element of the fold keeps its pre-fold binding. -/
theorem mapGet_foldl_set_not_mem {α : Type} (keyf : α → String) (valf : α → ℚ) :
    ∀ (l : List α) (m0 : List (String × ℚ)) (k : String), k ∉ l.map keyf →
      mapGet k (l.foldl (fun m p => mapSet (keyf p) (valf p) m) m0) = mapGet k m0 := by
  intro l
  induction l with
  | nil => intro m0 k _; rfl
  | cons q rest ih =>
    intro m0 k hk
    simp only [List.map_cons, List.mem_cons, not_or] at hk
    rw [List.foldl_cons, ih (mapSet (keyf q) (valf q) m0) k hk.2,
      mapGet_mapSet_other k (keyf q) (valf q) m0 hk.1]

/-- With pairwise distinct keys, the fold binds each element's key to its
value. -/
theorem mapGet_foldl_set_mem {α : Type} (keyf : α → String) (valf : α → ℚ) :
    ∀ (l : List α) (m0 : List (String × ℚ)), (l.map keyf).Nodup →
      ∀ p ∈ l, mapGet (keyf p)
          (l.foldl (fun m q => mapSet (keyf q) (valf q) m) m0) = some (valf p) := by
  intro l
  induction l with
  | nil => intro m0 _ p hp; cases hp
  | cons q rest ih =>
    intro m0 hnd p hp
    simp only [List.map_cons, List.nodup_cons] at hnd
    rw [List.foldl_cons]
    rcases List.mem_cons.mp hp with hq | hrest
    · subst hq
      rw [mapGet_foldl_set_not_mem keyf valf rest _ (keyf p) hnd.1,
        mapGet_mapSet_self]
    · exact ih _ hnd.2 p hrest

/-- Counterexample to C7: `calculateWeekChange` iterates only over the
current week's `projectTotals`, so a project present only in the previous
week ("proj-a" here, 1 hour) receives no change entry at all instead of the
−1 hour the claim requires. -/
theorem calculateWeekChange_prev_only_missing :
    mapGet "proj-a"
        (calculateWeekChange
          ⟨⟨20101, 0⟩, ⟨20107, 86399999⟩, 0, [], [], []⟩
          ⟨⟨20094, 0⟩, ⟨20100, 86399999⟩, 1, [],
            [⟨"proj-a", "Project A", 3600, 1⟩], []⟩).projectChanges = none
    ∧ "proj-a" ∈
        ([⟨"proj-a", "Project A", 3600, 1⟩] : List ProjectTime).map
          (fun p => p.projectId) := by
  exact ⟨rfl, by decide⟩

/-- C7 as amended: assuming pairwise distinct project ids in each report,
`projectChanges` contains exactly the projects of the CURRENT report, each
mapped to `currentHours − previousHours` where a project absent from the
previous report contributes 0 previous hours; projects appearing only in
the previous report receive no entry. -/
theorem calculateWeekChange_projectChanges (currentWeek previousWeek : WeeklyReport)
    (hcur : (currentWeek.projectTotals.map (fun p => p.projectId)).Nodup)
    (hprev : (previousWeek.projectTotals.map (fun p => p.projectId)).Nodup) :
    (∀ p ∈ currentWeek.projectTotals,
      mapGet p.projectId (calculateWeekChange currentWeek previousWeek).projectChanges =
        some ((p.seconds : ℚ) / 3600 -
          (mapGet p.projectId (prevProjectHoursMap previousWeek)).getD 0))
    ∧ (∀ k : String, k ∉ currentWeek.projectTotals.map (fun p => p.projectId) →
        mapGet k (calculateWeekChange currentWeek previousWeek).projectChanges = none)
    ∧ (∀ q ∈ previousWeek.projectTotals,
        mapGet q.projectId (prevProjectHoursMap previousWeek) =
          some ((q.seconds : ℚ) / 3600))
    ∧ ∀ k : String, k ∉ previousWeek.projectTotals.map (fun p => p.projectId) →
        mapGet k (prevProjectHoursMap previousWeek) = none := by
  refine ⟨?_, ?_, ?_, ?_⟩
  · intro p hp
    exact mapGet_foldl_set_mem (fun p => p.projectId)
      (fun p => (p.seconds : ℚ) / 3600 -
        (mapGet p.projectId (prevProjectHoursMap previousWeek)).getD 0)
      currentWeek.projectTotals [] hcur p hp
  · intro k hk
    exact mapGet_foldl_set_not_mem (fun p => p.projectId) _
      currentWeek.projectTotals [] k hk
  · intro q hq
    exact mapGet_foldl_set_mem (fun p => p.projectId)
      (fun p => (p.seconds : ℚ) / 3600) previousWeek.projectTotals [] hprev q hq
  · intro k hk
    exact mapGet_foldl_set_not_mem (fun p => p.projectId) _
      previousWeek.projectTotals [] k hk

/-- Witness for the amended C7 at concrete one-project reports
(10 h current vs 8 h previous on "p1"). -/
theorem calculateWeekChange_projectChanges_witness :
    ((([⟨"p1", "P1", 36000, 2⟩] : List ProjectTime).map (fun p => p.projectId)).Nodup
      ∧ (([⟨"p1", "P1", 28800, 1⟩] : List ProjectTime).map (fun p => p.projectId)).Nodup)
    ∧ mapGet "p1"
        (calculateWeekChange
          ⟨⟨20101, 0⟩, ⟨20107, 86399999⟩, 10, [], [⟨"p1", "P1", 36000, 2⟩], []⟩
          ⟨⟨20094, 0⟩, ⟨20100, 86399999⟩, 8, [],
            [⟨"p1", "P1", 28800, 1⟩], []⟩).projectChanges =
      some (((36000 : Int) : ℚ) / 3600 -
        (mapGet "p1" (prevProjectHoursMap
          ⟨⟨20094, 0⟩, ⟨20100, 86399999⟩, 8, [],
            [⟨"p1", "P1", 28800, 1⟩], []⟩)).getD 0) := by
  refine ⟨⟨by decide, by decide⟩, ?_⟩
  exact (calculateWeekChange_projectChanges
      ⟨⟨20101, 0⟩, ⟨20107, 86399999⟩, 10, [], [⟨"p1", "P1", 36000, 2⟩], []⟩
      ⟨⟨20094, 0⟩, ⟨20100, 86399999⟩, 8, [], [⟨"p1", "P1", 28800, 1⟩], []⟩
      (by decide) (by decide)).1 ⟨"p1", "P1", 36000, 2⟩ (by decide)

/-- Counterexample to C5: the SQL filter matches the raw `project_id` OR
`manual_project_id` columns, not the effective project.  An entry with
`projectId = "a"` overridden by `manualProjectId = "b"` (effective project
"b") is returned by `range(0, 100, "a")`; and an entry with both fields
null (effective project "unassigned") is not returned by
`range(0, 100, "unassigned")`. -/
theorem getTimeEntries_not_effective_project :
    (getTimeEntries 0 100 (some "a")
        [⟨50, "App", "w", none, none, some "a", some "b", none, false, none⟩]).map
      effectiveProject = ["b"]
    ∧ getTimeEntries 0 100 (some "unassigned")
        [⟨50, "App", "w", none, none, none, none, none, false, none⟩] = [] := by
  exact ⟨by decide, by decide⟩

/-- C5 as amended: for a non-empty project filter, `range` returns, in
ascending timestamp order, exactly the entries of `[start, end)` whose raw
`projectId` OR `manualProjectId` equals the filter (the effective-project
precedence rule plays no role, and "unassigned" never matches null
columns). -/
theorem getTimeEntries_range_filter (startDate endDate : Int) (f : String)
    (store : List TimeEntry) (hf : f ≠ "") :
    (getTimeEntries startDate endDate (some f) store).Sorted byTimestamp
    ∧ ∀ e : TimeEntry,
        e ∈ getTimeEntries startDate endDate (some f) store ↔
          e ∈ store ∧ startDate ≤ e.timestamp ∧ e.timestamp < endDate ∧
            (e.projectId = some f ∨ e.manualProjectId = some f) := by
  constructor
  · exact List.sorted_insertionSort byTimestamp _
  · intro e
    rw [getTimeEntries, (List.perm_insertionSort byTimestamp _).mem_iff,
      List.mem_filter]
    simp [entryInRange, matchesProjectFilter, hf, and_assoc]

/-- Witness for the amended C5 at a concrete store and filter. -/
theorem getTimeEntries_range_filter_witness :
    ("a" : String) ≠ ""
    ∧ ((⟨50, "App", "w", none, none, some "a", none, none, false, none⟩ : TimeEntry)
        ∈ getTimeEntries 0 100 (some "a")
          [⟨50, "App", "w", none, none, some "a", none, none, false, none⟩] ↔
      ((⟨50, "App", "w", none, none, some "a", none, none, false, none⟩ : TimeEntry)
          ∈ [(⟨50, "App", "w", none, none, some "a", none, none, false, none⟩ : TimeEntry)]
        ∧ (0 : Int) ≤ 50 ∧ (50 : Int) < 100 ∧
          ((some "a" : Option String) = some "a" ∨ (none : Option String) = some "a"))) := by
  refine ⟨by decide, ?_⟩
  exact (getTimeEntries_range_filter 0 100 "a"
    [⟨50, "App", "w", none, none, some "a", none, none, false, none⟩] (by decide)).2
    ⟨50, "App", "w", none, none, some "a", none, none, false, none⟩

/-- C1 (code bug): `getDailySummary` declares its `categoryMap` but never
writes to it, so `categoryBreakdown` is `[]` even for a non-idle entry of
the day whose `aiAnalysis` payload is valid JSON with the recognised
category "coding" — the repo's own test
(src/storage/database.test.ts, "categoryBreakdown is populated from
aiAnalysis") requires a "coding" bucket with 3600 seconds and 1 entry here.
The entry itself is aggregated (3600 active seconds, a project bucket),
only the category bucket is missing. -/
theorem getDailySummary_categoryBreakdown_always_empty :
    (getDailySummary 0
        [⟨43200000, "VS Code", "index.ts - project", none, some "Writing code",
          some "test-project", none, some 3600, false,
          some "\x7b\"taskDescription\": \"Writing code\", \"suggestedProjectId\": \"test-project\", \"confidence\": 0.9, \"category\": \"coding\", \"notes\": null\x7d"⟩]).categoryBreakdown
      = []
    ∧ (getDailySummary 0
        [⟨43200000, "VS Code", "index.ts - project", none, some "Writing code",
          some "test-project", none, some 3600, false,
          some "\x7b\"taskDescription\": \"Writing code\", \"suggestedProjectId\": \"test-project\", \"confidence\": 0.9, \"category\": \"coding\", \"notes\": null\x7d"⟩]).activeSeconds
      = 3600
    ∧ (getDailySummary 0
        [⟨43200000, "VS Code", "index.ts - project", none, some "Writing code",
          some "test-project", none, some 3600, false,
          some "\x7b\"taskDescription\": \"Writing code\", \"suggestedProjectId\": \"test-project\", \"confidence\": 0.9, \"category\": \"coding\", \"notes\": null\x7d"⟩]).projectBreakdown
      = [⟨"test-project", "test-project", 3600, 1⟩] := by
  exact ⟨rfl, by decide, by decide⟩

/-- Counterexample to C4: `updatePreviousEntryDuration` does not clamp or
flag a negative delta.  Closing the open entry (timestamp 10000 ms) with
the earlier timestamp 0 stores `floor(-10000 / 1000) = -10`, and the
negative value propagates into the daily aggregates
(`totalTrackedSeconds = activeSeconds = -10`). -/
theorem updatePreviousEntryDuration_negative_unclamped :
    (updatePreviousEntryDuration 0
        [⟨10000, "A", "w", none, none, none, none, none, false, none⟩]).map
      (fun e => e.durationSeconds) = [some (-10)]
    ∧ ((-10 : Int) < 0)
    ∧ (getDailySummary 0 (updatePreviousEntryDuration 0
        [⟨10000, "A", "w", none, none, none, none, none, false, none⟩])).totalTrackedSeconds
      = -10
    ∧ (getDailySummary 0 (updatePreviousEntryDuration 0
        [⟨10000, "A", "w", none, none, none, none, none, false, none⟩])).activeSeconds
      = -10 := by
  exact ⟨by decide, by decide, by decide, by decide⟩

/-- Modifying at the index just past a prefix updates the appended element. -/
theorem modifyEntry_length_append (f : TimeEntry → TimeEntry) :
    ∀ (xs : List TimeEntry) (y : TimeEntry),
      modifyEntry f xs.length (xs ++ [y]) = xs ++ [f y]
  | [], y => rfl
  | x :: xs, y => by
    show x :: modifyEntry f xs.length (xs ++ [y]) = x :: (xs ++ [f y])
    rw [modifyEntry_length_append f xs y]

/-- A store decomposes as its prefix plus the entry named by `getLast?`. -/
theorem getLast?_decomp {α : Type} (l : List α) (last : α)
    (h : l.getLast? = some last) : l.dropLast ++ [last] = l := by
  have hne : l ≠ [] := by
    intro hnil
    subst hnil
    cases h
  have hg := List.getLast?_eq_getLast l hne
  rw [h] at hg
  obtain rfl : last = l.getLast hne := by injection hg
  exact List.dropLast_append_getLast hne

/-- When every earlier row's timestamp is strictly below the last row's,
`ORDER BY timestamp DESC LIMIT 1` returns the last row. -/
theorem latestEntry_last :
    ∀ (l : List TimeEntry) (last : TimeEntry), l.getLast? = some last →
      (∀ e ∈ l.dropLast, e.timestamp < last.timestamp) →
      latestEntry l = some (l.length - 1, last.timestamp)
  | [], last, h, _ => by cases h
  | [e], last, h, _ => by
    rw [List.getLast?_singleton] at h
    obtain rfl : e = last := by injection h
    rfl
  | e :: e2 :: rest, last, h, hlt => by
    have h2 : (e2 :: rest).getLast? = some last := by
      rw [← List.getLast?_cons_cons]
      exact h
    have hlt2 : ∀ x ∈ (e2 :: rest).dropLast, x.timestamp < last.timestamp := by
      intro x hx
      apply hlt
      rw [List.dropLast_cons₂]
      exact List.mem_cons_of_mem e hx
    have he : e.timestamp < last.timestamp := by
      apply hlt
      rw [List.dropLast_cons₂]
      exact List.mem_cons_self e _
    have ih := latestEntry_last (e2 :: rest) last h2 hlt2
    show (match latestEntry (e2 :: rest) with
      | none => some (0, e.timestamp)
      | some (j, tj) =>
        if tj ≤ e.timestamp then some (0, e.timestamp) else some (j + 1, tj))
      = some ((e :: e2 :: rest).length - 1, last.timestamp)
    rw [ih]
    show (if last.timestamp ≤ e.timestamp then some (0, e.timestamp)
      else some ((e2 :: rest).length - 1 + 1, last.timestamp))
      = some ((e :: e2 :: rest).length - 1, last.timestamp)
    rw [if_neg (by omega : ¬ last.timestamp ≤ e.timestamp)]
    have hlen : (e2 :: rest).length - 1 + 1 = (e :: e2 :: rest).length - 1 := by
      simp only [List.length_cons]
      omega
    rw [hlen]

/-- Applying `updatePreviousEntryDuration` to a store whose last entry has the
strictly largest timestamp rewrites exactly that entry, storing
`floor((t - last.timestamp) / 1000)` without any clamping. -/
theorem close_updates_last (store : List TimeEntry) (last : TimeEntry)
    (hlast : store.getLast? = some last)
    (hmax : ∀ e ∈ store.dropLast, e.timestamp < last.timestamp) (t : Int) :
    updatePreviousEntryDuration t store =
      store.dropLast ++
        [{ last with durationSeconds := some ((t - last.timestamp).fdiv 1000) }] := by
  rw [updatePreviousEntryDuration, latestEntry_last store last hlast hmax]
  show modifyEntry _ (store.length - 1) store = _
  obtain ⟨xs, hxs⟩ : ∃ xs, store.dropLast = xs := ⟨store.dropLast, rfl⟩
  rw [hxs]
  have hdecomp : xs ++ [last] = store := by
    rw [← hxs]
    exact getLast?_decomp store last hlast
  rw [← hdecomp]
  have hl : (xs ++ [last]).length - 1 = xs.length := by simp
  rw [hl, modifyEntry_length_append]

/-- C4 as amended: `closeOpenDuration` stores exactly
`floor((now − openEntry.timestamp)/1000)` with no clamping or flagging; the
stored value is ≥ 0 when `now` is at or after the open entry's timestamp,
and an earlier `now` (clock skew / out-of-order insert) stores a negative
value (which then flows into the aggregates, see the counterexample). -/
theorem closeOpenDuration_floor_no_clamp (store : List TimeEntry) (last : TimeEntry)
    (hlast : store.getLast? = some last)
    (hmax : ∀ e ∈ store.dropLast, e.timestamp < last.timestamp) (t : Int) :
    updatePreviousEntryDuration t store =
      store.dropLast ++
        [{ last with durationSeconds := some ((t - last.timestamp).fdiv 1000) }]
    ∧ (last.timestamp ≤ t → 0 ≤ (t - last.timestamp).fdiv 1000)
    ∧ (t < last.timestamp → (t - last.timestamp).fdiv 1000 < 0) := by
  refine ⟨close_updates_last store last hlast hmax t, ?_, ?_⟩
  · intro h
    exact Int.fdiv_nonneg (by omega) (by norm_num)
  · intro h
    rw [Int.fdiv_eq_ediv _ (by norm_num)]
    exact Int.ediv_neg' (by omega) (by norm_num)

/-- Witness for the amended C4: a single open entry at 1000 ms closed at
3500 ms gets duration 2 s. -/
theorem closeOpenDuration_floor_no_clamp_witness :
    (([⟨1000, "A", "w", none, none, none, none, none, false, none⟩] :
        List TimeEntry).getLast?
      = some ⟨1000, "A", "w", none, none, none, none, none, false, none⟩)
    ∧ updatePreviousEntryDuration 3500
        [⟨1000, "A", "w", none, none, none, none, none, false, none⟩]
      = [⟨1000, "A", "w", none, none, none, none, some 2, false, none⟩] := by
  refine ⟨by decide, ?_⟩
  exact ((closeOpenDuration_floor_no_clamp
    [⟨1000, "A", "w", none, none, none, none, none, false, none⟩]
    ⟨1000, "A", "w", none, none, none, none, none, false, none⟩
    (by decide) (by decide) 3500).1).trans (by decide)

/-- Property: `expectedDurations` preserves the store length. -/
theorem expectedDurations_length :
    ∀ l : List TimeEntry, (expectedDurations l).length = l.length
  | [] => rfl
  | [_] => rfl
  | a :: b :: rest => by
    show (expectedDurations (b :: rest)).length + 1 = (b :: rest).length + 1
    rw [expectedDurations_length (b :: rest)]

/-- Property: `expectedDurations` preserves every timestamp. -/
theorem expectedDurations_map_timestamp :
    ∀ l : List TimeEntry,
      (expectedDurations l).map (fun e => e.timestamp) = l.map (fun e => e.timestamp)
  | [] => rfl
  | [_] => rfl
  | a :: b :: rest => by
    show a.timestamp :: (expectedDurations (b :: rest)).map (fun e => e.timestamp)
      = a.timestamp :: (b :: rest).map (fun e => e.timestamp)
    rw [expectedDurations_map_timestamp (b :: rest)]

/-- Property: `expectedDurations` leaves the last entry untouched. -/
theorem expectedDurations_getLast? :
    ∀ l : List TimeEntry, (expectedDurations l).getLast? = l.getLast?
  | [] => rfl
  | [_] => rfl
  | a :: b :: rest => by
    have ih := expectedDurations_getLast? (b :: rest)
    cases hrep : expectedDurations (b :: rest) with
    | nil =>
      have hlen := expectedDurations_length (b :: rest)
      rw [hrep] at hlen
      cases hlen
    | cons y ys =>
      rw [hrep] at ih
      show ({ a with durationSeconds := some ((b.timestamp - a.timestamp).fdiv 1000) }
        :: expectedDurations (b :: rest)).getLast? = (a :: b :: rest).getLast?
      rw [hrep, List.getLast?_cons_cons, ih, List.getLast?_cons_cons]

/-- Appending a new entry shifts the closing of the previous last entry:
`expectedDurations` of the extended run closes the old last entry against
the new entry's timestamp. -/
theorem expectedDurations_append :
    ∀ (l : List TimeEntry) (last : TimeEntry), l.getLast? = some last →
      ∀ a : TimeEntry,
      expectedDurations (l ++ [a]) =
        (expectedDurations l).dropLast ++
          [{ last with
              durationSeconds := some ((a.timestamp - last.timestamp).fdiv 1000) }, a]
  | [], last, h, a => by cases h
  | [x], last, h, a => by
    rw [List.getLast?_singleton] at h
    obtain rfl : x = last := by injection h
    rfl
  | x :: b :: rest, last, h, a => by
    have h2 : (b :: rest).getLast? = some last := by
      rw [← List.getLast?_cons_cons]
      exact h
    have ih := expectedDurations_append (b :: rest) last h2 a
    show { x with durationSeconds := some ((b.timestamp - x.timestamp).fdiv 1000) }
        :: expectedDurations ((b :: rest) ++ [a])
      = (expectedDurations (x :: b :: rest)).dropLast ++ _
    rw [ih]
    cases hrep : expectedDurations (b :: rest) with
    | nil =>
      have hlen := expectedDurations_length (b :: rest)
      rw [hrep] at hlen
      cases hlen
    | cons y ys =>
      show _ = ({ x with durationSeconds := some ((b.timestamp - x.timestamp).fdiv 1000) }
        :: expectedDurations (b :: rest)).dropLast ++ _
      rw [hrep, List.dropLast_cons₂, List.cons_append]

/-- In a strictly increasing run, every entry before the last has a
strictly smaller timestamp than the last. -/
theorem pairwise_lt_last (l : List TimeEntry) (last : TimeEntry)
    (hlast : l.getLast? = some last)
    (hp : l.Pairwise (fun a b => a.timestamp < b.timestamp)) :
    ∀ y ∈ l.dropLast, y.timestamp < last.timestamp := by
  have hd := getLast?_decomp l last hlast
  rw [← hd] at hp
  rw [List.pairwise_append] at hp
  intro y hy
  exact hp.2.2 y hy last (List.mem_singleton.mpr rfl)

/-- C2: appending entries with strictly increasing timestamps, calling
`closeOpenDuration` with the new timestamp immediately before each insert,
leaves every entry `i < N` with
`durationSeconds = floor((t_(i+1) − t_i) / 1000)` and the final entry with
a null duration; `closeOpenDuration` on an empty store is a no-op. -/
theorem runAppends_backfills_durations (es : List TimeEntry)
    (hp : es.Pairwise (fun a b => a.timestamp < b.timestamp))
    (hd : ∀ e ∈ es, e.durationSeconds = none) :
    runAppends es = expectedDurations es
    ∧ (∀ last : TimeEntry, (runAppends es).getLast? = some last →
        last.durationSeconds = none)
    ∧ ∀ t : Int, updatePreviousEntryDuration t [] = [] := by
  have hmain : ∀ l : List TimeEntry,
      l.Pairwise (fun a b => a.timestamp < b.timestamp) →
      runAppends l = expectedDurations l := by
    intro l
    induction l using List.reverseRecOn with
    | nil => intro _; rfl
    | append_singleton l e ih =>
      intro hpl
      rw [List.pairwise_append] at hpl
      have hrun : runAppends (l ++ [e]) =
          insertTimeEntry e (updatePreviousEntryDuration e.timestamp (runAppends l)) := by
        rw [runAppends, List.foldl_append]
        rfl
      rw [hrun, ih hpl.1]
      cases hl : l.getLast? with
      | none =>
        obtain rfl : l = [] := List.getLast?_eq_none_iff.mp hl
        rfl
      | some last =>
        have hglast : (expectedDurations l).getLast? = some last := by
          rw [expectedDurations_getLast?]
          exact hl
        have hmaxl : ∀ y ∈ l.dropLast, y.timestamp < last.timestamp :=
          pairwise_lt_last l last hl hpl.1
        have hmax : ∀ x ∈ (expectedDurations l).dropLast,
            x.timestamp < last.timestamp := by
          intro x hx
          have hmem : x.timestamp ∈
              (expectedDurations l).dropLast.map (fun e => e.timestamp) :=
            List.mem_map_of_mem _ hx
          rw [List.map_dropLast, expectedDurations_map_timestamp,
            ← List.map_dropLast] at hmem
          obtain ⟨y, hy, hyx⟩ := List.mem_map.mp hmem
          rw [← hyx]
          exact hmaxl y hy
        rw [close_updates_last (expectedDurations l) last hglast hmax e.timestamp,
          expectedDurations_append l last hl e, insertTimeEntry, List.append_assoc]
        rfl
  refine ⟨hmain es hp, ?_, fun t => rfl⟩
  intro last hlast
  rw [hmain es hp, expectedDurations_getLast?] at hlast
  have hne : es ≠ [] := by
    intro h
    subst h
    cases hlast
  have hg := List.getLast?_eq_getLast es hne
  rw [hlast] at hg
  obtain rfl : last = es.getLast hne := by injection hg
  exact hd _ (List.getLast_mem hne)

/-- Witness for C2 at a concrete three-entry run (timestamps 1000, 2500,
10000 ms): durations become 1 s, 7 s and null. -/
theorem runAppends_backfills_durations_witness :
    (([⟨1000, "A", "w", none, none, none, none, none, false, none⟩,
        ⟨2500, "B", "w", none, none, none, none, none, false, none⟩,
        ⟨10000, "C", "w", none, none, none, none, none, false, none⟩] :
          List TimeEntry).Pairwise (fun a b => a.timestamp < b.timestamp))
    ∧ runAppends
        [⟨1000, "A", "w", none, none, none, none, none, false, none⟩,
          ⟨2500, "B", "w", none, none, none, none, none, false, none⟩,
          ⟨10000, "C", "w", none, none, none, none, none, false, none⟩]
      = expectedDurations
        [⟨1000, "A", "w", none, none, none, none, none, false, none⟩,
          ⟨2500, "B", "w", none, none, none, none, none, false, none⟩,
          ⟨10000, "C", "w", none, none, none, none, none, false, none⟩]
    ∧ (runAppends
        [⟨1000, "A", "w", none, none, none, none, none, false, none⟩,
          ⟨2500, "B", "w", none, none, none, none, none, false, none⟩,
          ⟨10000, "C", "w", none, none, none, none, none, false, none⟩]).map
        (fun e => e.durationSeconds) = [some 1, some 7, none] := by
  refine ⟨by decide, ?_, by decide⟩
  exact (runAppends_backfills_durations
    [⟨1000, "A", "w", none, none, none, none, none, false, none⟩,
      ⟨2500, "B", "w", none, none, none, none, none, false, none⟩,
      ⟨10000, "C", "w", none, none, none, none, none, false, none⟩]
    (by decide) (by decide)).1

/-- Projection `durTs` distributes over append. -/
theorem durTs_append (a b : List TimeEntry) : durTs (a ++ b) = durTs a ++ durTs b :=
  List.map_append _ a b

/-- Projection `durTs` commutes with `dropLast`. -/
theorem durTs_dropLast (l : List TimeEntry) : durTs l.dropLast = (durTs l).dropLast :=
  List.map_dropLast _ l

/-- Projection `durTs` commutes with `getLast?`. -/
theorem durTs_getLast? (l : List TimeEntry) :
    (durTs l).getLast? = l.getLast?.map (fun e => (e.durationSeconds, e.timestamp)) :=
  List.getLast?_map _ l

/-- A row update that touches neither `durationSeconds` nor `timestamp`
leaves `durTs` unchanged. -/
theorem durTs_modifyEntry (f : TimeEntry → TimeEntry)
    (hf : ∀ e, (f e).durationSeconds = e.durationSeconds ∧ (f e).timestamp = e.timestamp) :
    ∀ (i : Nat) (l : List TimeEntry), durTs (modifyEntry f i l) = durTs l
  | i, [] => by cases i <;> rfl
  | 0, e :: es => by
    show ((f e).durationSeconds, (f e).timestamp) :: durTs es
      = (e.durationSeconds, e.timestamp) :: durTs es
    rw [(hf e).1, (hf e).2]
  | n + 1, e :: es => by
    show (e.durationSeconds, e.timestamp) :: durTs (modifyEntry f n es)
      = (e.durationSeconds, e.timestamp) :: durTs es
    rw [durTs_modifyEntry f hf n es]

/-- Every reachable store satisfies the open-entry invariant: the last row
is the only one with a null duration, and all earlier timestamps are
strictly smaller. -/
theorem reachable_invDT (s : List TimeEntry) (h : Reachable s) : InvDT (durTs s) := by
  induction h with
  | empty =>
    intro p hp
    cases hp
  | cycle s t app title shot hs hlt ih =>
    have hq : ∀ q ∈ durTs (updatePreviousEntryDuration t s), q.1 ≠ none ∧ q.2 < t := by
      cases hgl : s.getLast? with
      | none =>
        obtain rfl : s = [] := List.getLast?_eq_none_iff.mp hgl
        intro q hqmem
        cases hqmem
      | some last =>
        have hne : s ≠ [] := by
          intro hh
          subst hh
          cases hgl
        have hlast_mem : last ∈ s := by
          have hg := List.getLast?_eq_getLast s hne
          rw [hgl] at hg
          obtain rfl : last = s.getLast hne := by injection hg
          exact List.getLast_mem hne
        have hinv := ih (last.durationSeconds, last.timestamp)
          (by rw [durTs_getLast?, hgl]; rfl)
        have hmax : ∀ e ∈ s.dropLast, e.timestamp < last.timestamp := by
          intro e he
          have hmem : ((e.durationSeconds, e.timestamp) : Option Int × Int)
              ∈ (durTs s).dropLast := by
            rw [← durTs_dropLast]
            exact List.mem_map_of_mem _ he
          exact (hinv.2 _ hmem).2
        intro q hqmem
        rw [close_updates_last s last hgl hmax t, durTs_append] at hqmem
        rcases List.mem_append.mp hqmem with hq1 | hq2
        · rw [durTs_dropLast] at hq1
          have h2 := hinv.2 q hq1
          exact ⟨h2.1, lt_trans h2.2 (hlt last hlast_mem)⟩
        · obtain rfl := List.mem_singleton.mp hq2
          exact ⟨by simp, hlt last hlast_mem⟩
    intro p hp
    rw [insertTimeEntry, durTs_append,
      show durTs [samplerEntry t app title shot] = [((none : Option Int), t)] from rfl,
      List.getLast?_concat] at hp
    have hpe : ((none : Option Int), t) = p := by injection hp
    subst hpe
    refine ⟨rfl, ?_⟩
    rw [insertTimeEntry, durTs_append,
      show durTs [samplerEntry t app title shot] = [((none : Option Int), t)] from rfl,
      List.dropLast_concat]
    exact hq
  | patch s i td pid an hs ih =>
    rw [updateEntryAnalysis, durTs_modifyEntry
      (fun e => { e with
        taskDescription := some td, projectId := pid, aiAnalysis := some an })
      (fun e => ⟨rfl, rfl⟩) i s]
    exact ih

/-- C3: every reachable store has at most one open entry (null duration),
the open entry carries the latest timestamp, and the back-fill step of a
cycle closes it — between back-fill and the subsequent insert there is no
open entry at all, so a read never observes two open entries. -/
theorem reachable_single_open_entry (s : List TimeEntry) (h : Reachable s) :
    countNulls s ≤ 1
    ∧ (∀ e ∈ s, e.durationSeconds = none → ∀ e2 ∈ s, e2.timestamp ≤ e.timestamp)
    ∧ ∀ t : Int, countNulls (updatePreviousEntryDuration t s) = 0 := by
  have hinv := reachable_invDT s h
  cases hgl : s.getLast? with
  | none =>
    obtain rfl : s = [] := List.getLast?_eq_none_iff.mp hgl
    exact ⟨by decide, fun e he => absurd he (List.not_mem_nil e), fun t => rfl⟩
  | some last =>
    have hlastfacts := hinv (last.durationSeconds, last.timestamp)
      (by rw [durTs_getLast?, hgl]; rfl)
    have hpre : ∀ e ∈ s.dropLast,
        e.durationSeconds ≠ none ∧ e.timestamp < last.timestamp := by
      intro e he
      exact hlastfacts.2 _ (by rw [← durTs_dropLast]; exact List.mem_map_of_mem _ he)
    have hdecomp := getLast?_decomp s last hgl
    have hzero : countNulls s.dropLast = 0 := by
      have hfil : s.dropLast.filter (fun e => e.durationSeconds = none) = [] := by
        rw [List.filter_eq_nil_iff]
        intro a ha
        simp only [decide_eq_true_eq]
        exact (hpre a ha).1
      rw [countNulls, hfil]
      rfl
    refine ⟨?_, ?_, ?_⟩
    · have hc : countNulls s = countNulls s.dropLast + countNulls [last] := by
        conv_lhs => rw [← hdecomp]
        rw [countNulls, countNulls, countNulls, List.filter_append, List.length_append]
      have hone : countNulls [last] ≤ 1 := by
        simpa [countNulls] using
          List.length_filter_le (fun e => decide (e.durationSeconds = none)) [last]
      omega
    · intro e he hedur e2 he2
      rw [← hdecomp] at he he2
      rcases List.mem_append.mp he with h1 | h1
      · exact absurd hedur (hpre e h1).1
      · obtain rfl := List.mem_singleton.mp h1
        rcases List.mem_append.mp he2 with h2 | h2
        · exact le_of_lt (hpre e2 h2).2
        · obtain rfl := List.mem_singleton.mp h2
          exact le_refl _
    · intro t
      have hmax : ∀ e ∈ s.dropLast, e.timestamp < last.timestamp :=
        fun e he => (hpre e he).2
      rw [close_updates_last s last hgl hmax t, countNulls, List.filter_append,
        List.length_append]
      rw [countNulls] at hzero
      have h2 : (List.filter (fun e => decide (e.durationSeconds = none))
          [{ last with durationSeconds := some ((t - last.timestamp).fdiv 1000) }]).length
          = 0 := by
        simp
      omega

/-- Witness for C3 at a concrete two-cycle run (timestamps 1000 and 2000). -/
theorem reachable_single_open_entry_witness :
    countNulls (insertTimeEntry (samplerEntry 2000 "B" "w2" none)
      (updatePreviousEntryDuration 2000
        (insertTimeEntry (samplerEntry 1000 "A" "w1" none)
          (updatePreviousEntryDuration 1000 [])))) ≤ 1 := by
  exact (reachable_single_open_entry _
    (Reachable.cycle _ 2000 "B" "w2" none
      (Reachable.cycle _ 1000 "A" "w1" none Reachable.empty (by decide))
      (by decide))).1

/-- Entries of a row-updated store are original entries or images of
original entries under the update. -/
theorem mem_modifyEntry (f : TimeEntry → TimeEntry) :
    ∀ (i : Nat) (l : List TimeEntry) (e : TimeEntry), e ∈ modifyEntry f i l →
      e ∈ l ∨ ∃ x ∈ l, e = f x
  | i, [], e, he => by cases i <;> exact absurd he (List.not_mem_nil e)
  | 0, x :: xs, e, he => by
    rcases List.mem_cons.mp he with h1 | h1
    · exact Or.inr ⟨x, List.mem_cons_self x xs, h1⟩
    · exact Or.inl (List.mem_cons_of_mem x h1)
  | n + 1, x :: xs, e, he => by
    rcases List.mem_cons.mp he with h1 | h1
    · exact Or.inl (h1 ▸ List.mem_cons_self x xs)
    · rcases mem_modifyEntry f n xs e h1 with h2 | ⟨y, hy, hey⟩
      · exact Or.inl (List.mem_cons_of_mem x h2)
      · exact Or.inr ⟨y, List.mem_cons_of_mem x hy, hey⟩

/-- Every entry of a reachable store has `isIdle = false`: the sampler's
insert hard-codes it, idle cycles insert nothing, and neither the duration
back-fill nor a classification patch touches the flag. -/
theorem reachable_not_idle (s : List TimeEntry) (h : Reachable s) :
    ∀ e ∈ s, e.isIdle = false := by
  induction h with
  | empty => exact fun e he => absurd he (List.not_mem_nil e)
  | cycle s t app title shot hs hlt ih =>
    intro e he
    rw [insertTimeEntry] at he
    rcases List.mem_append.mp he with h1 | h1
    · rw [updatePreviousEntryDuration] at h1
      cases hls : latestEntry s with
      | none =>
        rw [hls] at h1
        exact ih e h1
      | some jt =>
        obtain ⟨j, tj⟩ := jt
        rw [hls] at h1
        rcases mem_modifyEntry
            (fun e => { e with durationSeconds := some ((t - tj).fdiv 1000) })
            j s e h1 with h2 | ⟨x, hx, rfl⟩
        · exact ih e h2
        · exact ih x hx
    · obtain rfl := List.mem_singleton.mp h1
      rfl
  | patch s i td pid an hs ih =>
    intro e he
    rw [updateEntryAnalysis] at he
    rcases mem_modifyEntry _ i s e he with h2 | ⟨x, hx, rfl⟩
    · exact ih e h2
    · exact ih x hx

/-- Over idle-free entries the aggregation loop accumulates nothing into
`idle` and keeps `total - active` constant. -/
theorem foldl_summaryStep_no_idle :
    ∀ (l : List TimeEntry) (acc : SummaryAcc), (∀ e ∈ l, e.isIdle = false) →
      (l.foldl summaryStep acc).idle = acc.idle ∧
      (l.foldl summaryStep acc).total - (l.foldl summaryStep acc).active
        = acc.total - acc.active
  | [], acc, _ => ⟨rfl, rfl⟩
  | e :: l, acc, h => by
    have he : e.isIdle = false := h e (List.mem_cons_self e l)
    have ih := foldl_summaryStep_no_idle l (summaryStep acc e)
      (fun x hx => h x (List.mem_cons_of_mem e hx))
    rw [List.foldl_cons]
    have hstep1 : (summaryStep acc e).idle = acc.idle := by
      simp [summaryStep, he]
    have hstep2 : (summaryStep acc e).total - (summaryStep acc e).active
        = acc.total - acc.active := by
      simp only [summaryStep, he, Bool.false_eq_true, if_false]
      omega
    exact ⟨by rw [ih.1, hstep1], by rw [ih.2, hstep2]⟩

/-- C10: in a store populated solely by the capture cycle every entry has
`isIdle = false`, hence every daily summary reports zero idle seconds and
`activeSeconds = totalTrackedSeconds`. -/
theorem sampler_summary_no_idle (s : List TimeEntry) (h : Reachable s) :
    (∀ e ∈ s, e.isIdle = false)
    ∧ ∀ day : Int,
        (getDailySummary day s).idleSeconds = 0
        ∧ (getDailySummary day s).activeSeconds
          = (getDailySummary day s).totalTrackedSeconds := by
  have hni := reachable_not_idle s h
  refine ⟨hni, ?_⟩
  intro day
  have hsub : ∀ e ∈ getTimeEntries day (day + 86400000) none s, e.isIdle = false := by
    intro e he
    apply hni
    rw [getTimeEntries] at he
    have h2 := (List.perm_insertionSort byTimestamp _).mem_iff.mp he
    exact (List.mem_filter.mp h2).1
  have hfold := foldl_summaryStep_no_idle
    (getTimeEntries day (day + 86400000) none s) ⟨0, 0, 0, [], []⟩ hsub
  constructor
  · show (List.foldl summaryStep ⟨0, 0, 0, [], []⟩
      (getTimeEntries day (day + 86400000) none s)).idle = 0
    rw [hfold.1]
  · show (List.foldl summaryStep ⟨0, 0, 0, [], []⟩
        (getTimeEntries day (day + 86400000) none s)).active
      = (List.foldl summaryStep ⟨0, 0, 0, [], []⟩
        (getTimeEntries day (day + 86400000) none s)).total
    have h2 : (List.foldl summaryStep ⟨0, 0, 0, [], []⟩
          (getTimeEntries day (day + 86400000) none s)).total
        - (List.foldl summaryStep ⟨0, 0, 0, [], []⟩
          (getTimeEntries day (day + 86400000) none s)).active = 0 - 0 := hfold.2
    omega

/-- Witness for C10 at the concrete two-cycle store and day 0. -/
theorem sampler_summary_no_idle_witness :
    (getDailySummary 0 (insertTimeEntry (samplerEntry 2000 "B" "w2" none)
        (updatePreviousEntryDuration 2000
          (insertTimeEntry (samplerEntry 1000 "A" "w1" none)
            (updatePreviousEntryDuration 1000 []))))).idleSeconds = 0
    ∧ (getDailySummary 0 (insertTimeEntry (samplerEntry 2000 "B" "w2" none)
        (updatePreviousEntryDuration 2000
          (insertTimeEntry (samplerEntry 1000 "A" "w1" none)
            (updatePreviousEntryDuration 1000 []))))).activeSeconds
      = (getDailySummary 0 (insertTimeEntry (samplerEntry 2000 "B" "w2" none)
        (updatePreviousEntryDuration 2000
          (insertTimeEntry (samplerEntry 1000 "A" "w1" none)
            (updatePreviousEntryDuration 1000 []))))).totalTrackedSeconds := by
  exact (sampler_summary_no_idle _
    (Reachable.cycle _ 2000 "B" "w2" none
      (Reachable.cycle _ 1000 "A" "w1" none Reachable.empty (by decide))
      (by decide))).2 0

end WorkTimeTaskLogger
